import Mathlib

/-!
Verification development for the room-scoped realtime event broker
(`src/server/server.ts`): channel authorization, role routing, the poll
tally state machine, question moderation, and late-joiner state replay.

All strings are modelled as `List Char` (`Str`) so that every definition
is executable and every concrete fact is decidable.
-/

set_option linter.unusedVariables false

namespace Broker

/-- Strings, modelled as lists of characters. -/
abbrev Str := List Char

/-! ## JavaScript numbers and poll tallies

The poll tally is stored as a JSON object (`values` column).  The handler
mutates it with plain JavaScript arithmetic (`poll.values[k] += d`), so the
embedding tracks the JavaScript semantics: reading an absent key yields
`undefined`, and `undefined + d` is `NaN`. -/

/-- A JavaScript numeric value: an integer, or `NaN` (the result of
arithmetic on `undefined`). -/
inductive JsNum where
  | num (n : Int)
  | nan
deriving DecidableEq, Repr

/-- JavaScript addition `x + d`, where `x` is the value read from an object key
(`none` when the key is absent, i.e. `undefined`). -/
def jsAdd (x : Option JsNum) (d : Int) : JsNum :=
  match x with
  | some (.num n) => .num (n + d)
  | some .nan => .nan
  | none => .nan

/-- A poll tally: a JSON object mapping choice labels to numbers.
Keys are unique in a JavaScript object; lookup returns the first match. -/
abbrev Tally := List (Str × JsNum)

/-- Read a key from a tally (JavaScript property read). -/
def tallyGet : Tally → Str → Option JsNum
  | [], _ => none
  | (k', v') :: t, k => if k' = k then some v' else tallyGet t k

/-- Write a key into a tally (JavaScript property assignment: update the
existing key in place, or append a fresh key). -/
def tallySet : Tally → Str → JsNum → Tally
  | [], k, v => [(k, v)]
  | (k', v') :: t, k, v => if k' = k then (k, v) :: t else (k', v') :: tallySet t k v

/-- The JavaScript update `obj[k] += d`. -/
def tallyAdd (t : Tally) (k : Str) (d : Int) : Tally :=
  tallySet t k (jsAdd (tallyGet t k) d)

/-- The five fixed choice labels of the reference deployment. -/
def choiceLabels : List Str := [['A'], ['B'], ['C'], ['D'], ['E']]

/-- The tally created by `PollLaunch`:
`{ A: 0, B: 0, C: 0, D: 0, E: 0 }`. -/
def initTally : Tally :=
  [(['A'], .num 0), (['B'], .num 0), (['C'], .num 0), (['D'], .num 0), (['E'], .num 0)]

/-- JavaScript truthiness of the destructured `prevChoice` field:
`undefined` (absent) and the empty string are falsy. -/
def strTruthy : Option Str → Bool
  | none => false
  | some s => s ≠ []

/-- The tally update performed inside the `PollResponse` transaction:
```
if (prevChoice) { poll.values[prevChoice] += -1; }
poll.values[newChoice] += 1;
```
-/
def prevStage (t : Tally) (prevChoice : Option Str) : Tally :=
  match prevChoice with
  | some p => if p ≠ [] then tallyAdd t p (-1) else t
  | none => t

/-- The increment of the new choice, after the optional decrement. -/
def applyPollResponse (t : Tally) (prevChoice : Option Str) (newChoice : Str) : Tally :=
  tallyAdd (prevStage t prevChoice) newChoice 1

/-- The tally invariant: each of the five fixed choice labels is present
with a non-negative integer count. -/
def tallyInvB (t : Tally) : Bool :=
  choiceLabels.all fun l =>
    match tallyGet t l with
    | some (.num n) => decide (0 ≤ n)
    | _ => false

/-- Well-formedness of a supplied previous choice: when it is one of the
five labels, its current count is strictly positive (as it is for an
honest client whose earlier vote was counted). -/
def prevOKB (t : Tally) (prev : Option Str) : Bool :=
  match prev with
  | none => true
  | some p =>
      !(decide (p ∈ choiceLabels)) ||
        (match tallyGet t p with
         | some (.num n) => decide (0 < n)
         | _ => false)

/-! ## Channel-name parsing

The authorizer and the connection handler both parse the requested
channel name with
`roomRegEx = /^\/rooms\/(?:([^\/]+?))(?:\/([^\/]+?))?\/?$/i`:
a leading `/rooms/` (the literal matched case-insensitively), a first
non-empty slash-free segment (the room token), an optional second
non-empty slash-free segment (the role token), and an optional trailing
slash.  The parser below works on the `/`-separated segments of the name
and accepts exactly the language of that regular expression, with the same
two captures. -/

/-- Split a character list on `'/'` (every occurrence separates; the result
is always non-empty). -/
def splitSlash : List Char → List Str
  | [] => [[]]
  | c :: cs =>
    let r := splitSlash cs
    if c = '/' then [] :: r
    else (c :: r.headD []) :: r.tail

/-- Join segments back with `'/'` separators. -/
def joinSlash : List Str → Str
  | [] => []
  | [s] => s
  | s :: ss => s ++ '/' :: joinSlash ss

/-- The literal `rooms`, matched case-insensitively by the regex. -/
def roomsWord : Str := ['r', 'o', 'o', 'm', 's']

/-- Does a segment spell `rooms`, ignoring case? -/
def isRoomsSeg (s : Str) : Bool := s.map Char.toLower = roomsWord

/-- Accept or reject the segment list of a channel name, returning the two
captures `(roomToken, roleToken?)` of `roomRegEx` on success. -/
def parseSegs : List Str → Option (Str × Option Str)
  | [pre, r, s1] =>
    if pre = [] ∧ isRoomsSeg r ∧ s1 ≠ [] then some (s1, none) else none
  | [pre, r, s1, s2] =>
    if pre = [] ∧ isRoomsSeg r ∧ s1 ≠ [] then
      if s2 = [] then some (s1, none) else some (s1, some s2)
    else none
  | [pre, r, s1, s2, s3] =>
    if pre = [] ∧ isRoomsSeg r ∧ s1 ≠ [] ∧ s2 ≠ [] ∧ s3 = [] then
      some (s1, some s2)
    else none
  | _ => none

/-- Runs `roomRegEx.exec(name)`: `none` when the regex rejects, otherwise the
captured `(roomToken, roleToken?)`. -/
def parseRoomPath (name : Str) : Option (Str × Option Str) :=
  parseSegs (splitSlash name)

/-- The room-path pattern `/rooms/{roomToken}[/{roleToken}]` stated
declaratively: a case-insensitive `rooms` literal, non-empty slash-free
tokens, and an optional trailing slash. -/
def MatchesRoomPattern (name tok : Str) (rt : Option Str) : Prop :=
  ∃ r : Str, r.map Char.toLower = roomsWord ∧ tok ≠ [] ∧ '/' ∉ tok ∧
    match rt with
    | none =>
        name = '/' :: (r ++ '/' :: tok) ∨ name = '/' :: (r ++ '/' :: tok) ++ ['/']
    | some ro =>
        ro ≠ [] ∧ '/' ∉ ro ∧
          (name = '/' :: (r ++ '/' :: tok ++ '/' :: ro) ∨
           name = '/' :: (r ++ '/' :: tok ++ '/' :: ro) ++ ['/'])

/-! ## Data model

The durable entities (`Room`, `Poll`, `Question`) and the database state,
mirroring the columns used by the server.  Timestamps are abstract `Nat`
ticks; `ended_at` is nullable. -/

/-- A room: internal id and externally visible identifier. -/
structure Room where
  id : Nat
  visibleId : Str
deriving DecidableEq, Repr

/-- A poll row: owning room, JSON tally, creation tick, nullable end tick. -/
structure Poll where
  id : Nat
  roomId : Nat
  values : Tally
  created_at : Nat
  ended_at : Option Nat
deriving DecidableEq, Repr

/-- A question row. -/
structure Question where
  id : Nat
  roomId : Nat
  approved : Bool
  votes : Int
  text : Str
deriving DecidableEq, Repr

/-- A question as transmitted to clients: the destructuring
`({ roomId: dropRoomId, ...question }) => question` strips the room id. -/
structure QuestionWire where
  id : Nat
  approved : Bool
  votes : Int
  text : Str
deriving DecidableEq, Repr

/-- Strip the room-identity field before transmission. -/
def stripRoom (q : Question) : QuestionWire :=
  ⟨q.id, q.approved, q.votes, q.text⟩

/-- The database state. -/
structure DB where
  rooms : List Room
  polls : List Poll
  questions : List Question
deriving DecidableEq, Repr

/-! ## Broadcast model

`io.of(name).emit(...)` addresses every socket of the namespace `name`;
`socket.emit(...)` addresses one socket.  Namespaces with distinct names
are disjoint. -/

/-- The target of an emit: a whole namespace, or a single socket. -/
inductive Target where
  | ns (name : Str)
  | sock (sid : Nat)
deriving DecidableEq, Repr

/-- A server-to-client event, with its payload. -/
inductive SEvent where
  | pollStart (pollId : Nat)
  | pollResults (values : Tally)
  | pollToggleSig
  | pollEndSig
  | questionNew (qs : List QuestionWire)
  | questionClearSig
  | roomError
deriving DecidableEq, Repr

/-- One emit: a target and an event. -/
structure Emit where
  target : Target
  event : SEvent
deriving DecidableEq, Repr

/-- A connected client: socket id and the namespace it is connected to. -/
structure Conn where
  sid : Nat
  nsName : Str
deriving DecidableEq, Repr

/-- Does an emit reach a given connection? A namespace emit reaches every
socket of that namespace; a socket emit reaches exactly that socket. -/
def deliversTo (e : Emit) (c : Conn) : Bool :=
  match e.target with
  | .ns n => n = c.nsName
  | .sock s => s = c.sid

/-- How many times a connection receives a given event from a list of
emits. -/
def deliveryCount (emits : List Emit) (c : Conn) (ev : SEvent) : Nat :=
  (emits.filter (fun e => deliversTo e c && e.event = ev)).length

/-- The viewer namespace of a room: `` `/rooms/${roomName}` ``. -/
def viewerNs (roomName : Str) : Str :=
  '/' :: 'r' :: 'o' :: 'o' :: 'm' :: 's' :: '/' :: roomName

/-- The administrator namespace of a room: `` `/rooms/${roomName}/admin` ``. -/
def adminNs (roomName : Str) : Str :=
  viewerNs roomName ++ ['/', 'a', 'd', 'm', 'i', 'n']

/-- Acknowledgment values passed to the client callback. -/
inductive Ack where
  | ok (b : Bool)
  | choice (c : Str)
  | err
  | createdPoll (id : Nat)
  | question (q : QuestionWire)
deriving DecidableEq, Repr

/-! ## Connection authorization and role routing -/

/-- The dynamic-namespace authorizer (`io.of` callback): reject when
`roomRegEx` does not match, reject when no `Room` row has
`visibleId = roomToken`, else accept.  It returns a bare accept/reject
bit and performs no write. -/
def authorizeRoom (rooms : List Room) (name : Str) : Bool :=
  match parseRoomPath name with
  | none => false
  | some (tok, _) => rooms.any (fun r => r.visibleId = tok)

/-- The role tag of a session. -/
inductive Role where
  | admin
  | viewer
deriving DecidableEq, Repr

/-- The branch `if (admin) { ... } else { ... }`: the second capture, when present,
is truthy exactly when non-empty. -/
def boundRole (rt : Option Str) : Role :=
  if strTruthy rt then .admin else .viewer

/-- The events a handler is registered for, per role (admin branch,
viewer branch, plus the shared handlers registered for both). -/
inductive HandlerName where
  | pollLaunchH
  | pollRevealH
  | pollToggleH
  | pollEndH
  | questionApproveH
  | questionClearH
  | pollResponseH
  | reactionSendH
  | questionAskH
  | questionUpvoteH
  | disconnectH
deriving DecidableEq, Repr

/-- The handler set registered on a fresh connection, by role. -/
def registeredHandlers : Role → List HandlerName
  | .admin =>
      [.pollLaunchH, .pollRevealH, .pollToggleH, .pollEndH,
       .questionApproveH, .questionClearH,
       .questionAskH, .questionUpvoteH, .disconnectH]
  | .viewer =>
      [.pollResponseH, .reactionSendH,
       .questionAskH, .questionUpvoteH, .disconnectH]

/-- The connection handler's session setup: re-parse the namespace name;
on failure emit `RoomError` and stop; otherwise bind the role from the
second capture and register the role's handler set. -/
def connectSession (name : Str) : Option (Str × Role × List HandlerName) :=
  match parseRoomPath name with
  | none => none
  | some (tok, rt) => some (tok, boundRole rt, registeredHandlers (boundRole rt))

/-! ## Poll handlers -/

/-- Handler `PollLaunch`: insert a poll with the five labels zeroed, emit
`PollStart {id}` to the room's viewer namespace, acknowledge with the
created poll. `fresh` is the id assigned by the store, `now` the creation
tick. -/
def pollLaunch (db : DB) (roomId : Nat) (roomName : Str) (fresh now : Nat) :
    DB × List Emit × Ack :=
  ({ db with polls := db.polls ++ [⟨fresh, roomId, initTally, now, none⟩] },
   [⟨.ns (viewerNs roomName), .pollStart fresh⟩],
   .createdPoll fresh)

/-- Handler `PollEnd`: set `ended_at` on every poll row matching the id, emit
`PollEnd` to the viewer namespace, acknowledge `true`. -/
def pollEnd (db : DB) (roomName : Str) (pollId now : Nat) :
    DB × List Emit × Ack :=
  ({ db with polls :=
      db.polls.map (fun p => if p.id = pollId then { p with ended_at := some now } else p) },
   [⟨.ns (viewerNs roomName), .pollEndSig⟩],
   .ok true)

/-- Result of the `PollResponse` handler: new database state, the writes
performed inside the transaction (poll id and the full tally written),
the emits, and the acknowledgment. -/
structure PROut where
  db : DB
  txWrites : List (Nat × Tally)
  emits : List Emit
  ack : Ack
deriving DecidableEq, Repr

/-- Handler `PollResponse` (viewer): inside one transaction, read the poll's
tally, apply the decrement/increment, and persist the full tally with a
single update; then emit the updated tally to the admin namespace and
acknowledge `{choice}`.  When the poll row is absent the transaction
throws (property read on `undefined`), the `catch` fires, and the
submitting client's callback receives the error; nothing is written or
emitted. -/
def pollResponse (db : DB) (roomName : Str) (pollId : Nat)
    (prevChoice : Option Str) (newChoice : Str) : PROut :=
  match db.polls.find? (fun p => p.id = pollId) with
  | none => ⟨db, [], [], .err⟩
  | some p =>
    let t' := applyPollResponse p.values prevChoice newChoice
    ⟨{ db with polls :=
        db.polls.map (fun q => if q.id = pollId then { q with values := t' } else q) },
     [(pollId, t')],
     [⟨.ns (adminNs roomName), .pollResults t'⟩],
     .choice newChoice⟩

/-! ## Question handlers -/

/-- The fields of a `QuestionAsk` payload that exist as columns.  The
insert is `{ roomId, ...data, approved: false }`: the spread comes after
`roomId` (so a payload `roomId` overrides the session's room) and before
`approved: false` (so `approved` is always false).  `votes` and `text`
fall back to the column defaults when absent. -/
structure AskPayload where
  text : Option Str
  roomId : Option Nat
  votes : Option Int
  approved : Option Bool
deriving DecidableEq, Repr

/-- The question row produced by the `QuestionAsk` insert. -/
def askedQuestion (sessionRoomId fresh : Nat) (data : AskPayload) : Question :=
  { id := fresh
    roomId := data.roomId.getD sessionRoomId
    approved := false
    votes := data.votes.getD 0
    text := data.text.getD [] }

/-- Handler `QuestionAsk` (either role): insert one question, acknowledge `true`,
emit the new question (room id stripped) to the admin namespace only. -/
def questionAsk (db : DB) (sessionRoomId : Nat) (roomName : Str) (fresh : Nat)
    (data : AskPayload) : DB × List Emit × Ack :=
  let q := askedQuestion sessionRoomId fresh data
  ({ db with questions := db.questions ++ [q] },
   [⟨.ns (adminNs roomName), .questionNew [stripRoom q]⟩],
   .ok true)

/-- The row update of `QuestionApprove`: set `approved` on every row
matching the id (the `where` clause filters on the id alone). -/
def approveRows (qs : List Question) (questionId : Nat) : List Question :=
  qs.map fun x => if x.id = questionId then { x with approved := true } else x

/-- The row update of `QuestionUpvote`: `votes = votes + 1` on every row
matching the id (the `where` clause filters on the id alone). -/
def upvoteRows (qs : List Question) (questionId : Nat) : List Question :=
  qs.map fun x => if x.id = questionId then { x with votes := x.votes + 1 } else x

/-- Handler `QuestionApprove` (admin): set `approved` on the question matching the
id — with no room filter — emit the updated record to the viewer
namespace of the session's room, acknowledge with the record.  `none`
when no row matches (the destructuring of the empty update result throws,
unhandled). -/
def questionApprove (db : DB) (roomName : Str) (questionId : Nat) :
    Option (DB × List Emit × Ack) :=
  match db.questions.find? (fun q => q.id = questionId) with
  | none => none
  | some q =>
    let q' := { q with approved := true }
    some
      ({ db with questions := approveRows db.questions questionId },
       [⟨.ns (viewerNs roomName), .questionNew [stripRoom q']⟩],
       .question (stripRoom q'))

/-- Handler `QuestionUpvote` (either role): increment `votes` on the question
matching the id — with no room filter — and emit the updated record to
both the viewer and the admin namespace of the session's room. -/
def questionUpvote (db : DB) (roomName : Str) (questionId : Nat) :
    Option (DB × List Emit) :=
  match db.questions.find? (fun q => q.id = questionId) with
  | none => none
  | some q =>
    let q' := { q with votes := q.votes + 1 }
    some
      ({ db with questions := upvoteRows db.questions questionId },
       [⟨.ns (viewerNs roomName), .questionNew [stripRoom q']⟩,
        ⟨.ns (adminNs roomName), .questionNew [stripRoom q']⟩])

/-- Handler `QuestionClear` (admin): delete every question of the session's room,
emit the clear signal to the viewer namespace and to the initiating
socket itself. -/
def questionClear (db : DB) (sessionRoomId : Nat) (roomName : Str) (selfSid : Nat) :
    DB × List Emit :=
  ({ db with questions := db.questions.filter (fun q => !(q.roomId = sessionRoomId : Bool)) },
   [⟨.ns (viewerNs roomName), .questionClearSig⟩,
    ⟨.sock selfSid, .questionClearSig⟩])

/-! ## State replay on connection -/

/-- Insert a poll into a list sorted by `created_at` descending. -/
def insertDesc (p : Poll) : List Poll → List Poll
  | [] => [p]
  | q :: qs => if p.created_at ≤ q.created_at then q :: insertDesc p qs else p :: q :: qs

/-- Sorting that mirrors `orderBy("created_at", "desc")`. -/
def sortDesc : List Poll → List Poll
  | [] => []
  | p :: ps => insertDesc p (sortDesc ps)

/-- Poll replay: take the room's polls newest-first; when the newest
exists and `ended_at` is null, emit `PollStart {id}` to the connecting
socket only. -/
def replayPoll (db : DB) (roomId sid : Nat) : List Emit :=
  match sortDesc (db.polls.filter (fun p => p.roomId = roomId)) with
  | [] => []
  | p :: _ =>
    match p.ended_at with
    | none => [⟨.sock sid, .pollStart p.id⟩]
    | some _ => []

/-- Question replay: admins receive every question of the room, viewers
only the approved ones; both projections strip the room id. -/
def replayQuestions (db : DB) (roomId : Nat) (role : Role) : List QuestionWire :=
  match role with
  | .admin => (db.questions.filter (fun q => q.roomId = roomId)).map stripRoom
  | .viewer =>
      (db.questions.filter (fun q => q.roomId = roomId && q.approved)).map stripRoom

/-- The emits of state replay for a newly connected socket. -/
def replayEmits (db : DB) (roomId sid : Nat) (role : Role) : List Emit :=
  replayPoll db roomId sid ++ [⟨.sock sid, .questionNew (replayQuestions db roomId role)⟩]

/-! ## Theorems -/

/-! ### Basic tally lemmas -/

theorem tallyGet_tallySet_self (t : Tally) (k : Str) (v : JsNum) :
    tallyGet (tallySet t k v) k = some v := by
  induction t with
  | nil => simp [tallySet, tallyGet]
  | cons p t ih =>
    obtain ⟨k', v'⟩ := p
    by_cases h : k' = k
    · simp [tallySet, tallyGet, h]
    · simp [tallySet, tallyGet, h, ih]

theorem tallyGet_tallySet_ne (t : Tally) (k l : Str) (v : JsNum) (h : k ≠ l) :
    tallyGet (tallySet t k v) l = tallyGet t l := by
  induction t with
  | nil => simp [tallySet, tallyGet, h]
  | cons p t ih =>
    obtain ⟨k', v'⟩ := p
    by_cases hk : k' = k
    · subst hk
      simp [tallySet, tallyGet, h]
    · by_cases hl : k' = l
      · subst hl
        simp [tallySet, tallyGet, hk, Ne.symm h]
      · simp [tallySet, tallyGet, hk, hl, ih]

theorem tallyGet_tallyAdd_self (t : Tally) (k : Str) (d : Int) :
    tallyGet (tallyAdd t k d) k = some (jsAdd (tallyGet t k) d) :=
  tallyGet_tallySet_self t k _

theorem tallyGet_tallyAdd_ne (t : Tally) (k l : Str) (d : Int) (h : k ≠ l) :
    tallyGet (tallyAdd t k d) l = tallyGet t l :=
  tallyGet_tallySet_ne t k l _ h

/-- A present key is never removed by an assignment. -/
theorem tallySet_keeps_key (t : Tally) (k l : Str) (v w : JsNum)
    (h : tallyGet t l = some w) : ∃ w', tallyGet (tallySet t k v) l = some w' := by
  by_cases hk : k = l
  · exact ⟨v, hk ▸ tallyGet_tallySet_self t k v⟩
  · exact ⟨w, by rw [tallyGet_tallySet_ne t k l v hk]; exact h⟩

theorem splitSlash_ne_nil (l : List Char) : splitSlash l ≠ [] := by
  cases l with
  | nil => simp [splitSlash]
  | cons c cs =>
    by_cases h : c = '/'
    · simp [splitSlash, h]
    · simp [splitSlash, h]

theorem joinSlash_cons (s : Str) (h : Str) (t : List Str) :
    joinSlash (s :: h :: t) = s ++ '/' :: joinSlash (h :: t) := by
  rfl

theorem splitSlash_cons_slash (cs : List Char) :
    splitSlash ('/' :: cs) = [] :: splitSlash cs := by
  simp [splitSlash]

theorem splitSlash_cons_ne (c : Char) (cs : List Char) (h : c ≠ '/') :
    splitSlash (c :: cs) = (c :: (splitSlash cs).headD []) :: (splitSlash cs).tail := by
  simp [splitSlash, h]

theorem joinSlash_splitSlash (l : List Char) : joinSlash (splitSlash l) = l := by
  induction l with
  | nil => rfl
  | cons c cs ih =>
    obtain ⟨h, t, hht⟩ : ∃ h t, splitSlash cs = h :: t := by
      cases hs : splitSlash cs with
      | nil => exact absurd hs (splitSlash_ne_nil cs)
      | cons h t => exact ⟨h, t, rfl⟩
    by_cases hc : c = '/'
    · subst hc
      rw [splitSlash_cons_slash, hht, joinSlash_cons, ← hht, ih]
      rfl
    · rw [splitSlash_cons_ne c cs hc, hht]
      cases t with
      | nil =>
        simp only [List.headD, List.tail]
        show c :: h = c :: cs
        have : joinSlash [h] = cs := by rw [← hht, ih]
        simpa [joinSlash] using this
      | cons h2 t2 =>
        simp only [List.headD, List.tail]
        rw [joinSlash_cons]
        have : joinSlash (h :: h2 :: t2) = cs := by rw [← hht, ih]
        rw [joinSlash_cons] at this
        show (c :: h) ++ '/' :: joinSlash (h2 :: t2) = c :: cs
        rw [← this]
        rfl

theorem splitSlash_no_slash (l : List Char) (s : Str) (hs : s ∈ splitSlash l) :
    '/' ∉ s := by
  induction l generalizing s with
  | nil =>
    simp [splitSlash] at hs
    subst hs; simp
  | cons c cs ih =>
    obtain ⟨h, t, hht⟩ : ∃ h t, splitSlash cs = h :: t := by
      cases hv : splitSlash cs with
      | nil => exact absurd hv (splitSlash_ne_nil cs)
      | cons h t => exact ⟨h, t, rfl⟩
    by_cases hc : c = '/'
    · subst hc
      simp only [splitSlash, if_pos rfl] at hs
      rcases List.mem_cons.mp hs with h1 | h2
      · subst h1; simp
      · exact ih s h2
    · simp only [splitSlash, if_neg hc, hht] at hs
      rcases List.mem_cons.mp hs with h1 | h2
      · subst h1
        intro hmem
        rcases List.mem_cons.mp hmem with h3 | h4
        · exact hc h3.symm
        · exact ih h (by rw [hht]; exact List.mem_cons_self h t) h4
      · exact ih s (by rw [hht]; exact List.mem_cons_of_mem h h2)

theorem splitSlash_of_no_slash (s : Str) (hs : '/' ∉ s) : splitSlash s = [s] := by
  induction s with
  | nil => rfl
  | cons c cs ih =>
    have hc : c ≠ '/' := fun h => hs (h ▸ List.mem_cons_self c cs)
    have hcs : '/' ∉ cs := fun h => hs (List.mem_cons_of_mem c h)
    simp [splitSlash, hc, ih hcs]

theorem splitSlash_append (s : Str) (r : List Char) (hs : '/' ∉ s) :
    splitSlash (s ++ '/' :: r) = s :: splitSlash r := by
  induction s with
  | nil => simp [splitSlash]
  | cons c cs ih =>
    have hc : c ≠ '/' := fun h => hs (h ▸ List.mem_cons_self c cs)
    have hcs : '/' ∉ cs := fun h => hs (List.mem_cons_of_mem c h)
    simp [splitSlash, hc, ih hcs]

theorem no_slash_of_isRooms (r : Str) (h : r.map Char.toLower = roomsWord) :
    '/' ∉ r := by
  intro hmem
  have h2 : Char.toLower '/' ∈ r.map Char.toLower := List.mem_map_of_mem Char.toLower hmem
  rw [h] at h2
  revert h2
  decide

/-! ## Parser correctness -/

theorem isRoomsSeg_iff (r : Str) : isRoomsSeg r = true ↔ r.map Char.toLower = roomsWord := by
  simp [isRoomsSeg]

/-- Parser correctness: `roomRegEx` accepts a name with captures `(tok, rt)` exactly when the
name matches the declarative room-path pattern with those tokens. -/
theorem parseRoomPath_correct (name tok : Str) (rt : Option Str) :
    parseRoomPath name = some (tok, rt) ↔ MatchesRoomPattern name tok rt := by
  constructor
  · intro h
    unfold parseRoomPath at h
    have hjoin : joinSlash (splitSlash name) = name := joinSlash_splitSlash name
    have hfree : ∀ s ∈ splitSlash name, '/' ∉ s := splitSlash_no_slash name
    rcases hsegs : splitSlash name with _ | ⟨a, _ | ⟨b, _ | ⟨c, _ | ⟨d, _ | ⟨e, rest⟩⟩⟩⟩⟩ <;>
      rw [hsegs] at h hjoin hfree
    · simp [parseSegs] at h
    · simp [parseSegs] at h
    · simp [parseSegs] at h
    · -- three segments: `/rooms/tok`
      rw [show parseSegs [a, b, c] =
            (if a = [] ∧ isRoomsSeg b ∧ c ≠ [] then some (c, none) else none) from rfl] at h
      split_ifs at h with hcond
      · obtain ⟨ha, hb, hc⟩ := hcond
        have h2 := Option.some.inj h
        rw [Prod.mk.injEq] at h2
        obtain ⟨htok, hrt⟩ := h2
        rw [← htok, ← hrt]
        subst ha
        refine ⟨b, (isRoomsSeg_iff b).mp hb, hc, hfree c (by simp), ?_⟩
        left
        rw [← hjoin]
        simp [joinSlash]
    · -- four segments: `/rooms/tok/` or `/rooms/tok/role`
      rw [show parseSegs [a, b, c, d] =
            (if a = [] ∧ isRoomsSeg b ∧ c ≠ [] then
              if d = [] then some (c, none) else some (c, some d)
             else none) from rfl] at h
      split_ifs at h with hcond hd
      · obtain ⟨ha, hb, hc⟩ := hcond
        have h2 := Option.some.inj h
        rw [Prod.mk.injEq] at h2
        obtain ⟨htok, hrt⟩ := h2
        rw [← htok, ← hrt]
        subst ha
        subst hd
        refine ⟨b, (isRoomsSeg_iff b).mp hb, hc, hfree c (by simp), ?_⟩
        right
        rw [← hjoin]
        simp [joinSlash]
      · obtain ⟨ha, hb, hc⟩ := hcond
        have h2 := Option.some.inj h
        rw [Prod.mk.injEq] at h2
        obtain ⟨htok, hrt⟩ := h2
        rw [← htok, ← hrt]
        subst ha
        refine ⟨b, (isRoomsSeg_iff b).mp hb, hc, hfree c (by simp), hd,
          hfree d (by simp), ?_⟩
        left
        rw [← hjoin]
        simp [joinSlash]
    · -- five segments: `/rooms/tok/role/`
      cases rest with
      | cons f rest2 =>
        rw [show parseSegs (a :: b :: c :: d :: e :: f :: rest2) = none from rfl] at h
        exact absurd h (by simp)
      | nil =>
        rw [show parseSegs [a, b, c, d, e] =
              (if a = [] ∧ isRoomsSeg b ∧ c ≠ [] ∧ d ≠ [] ∧ e = [] then
                some (c, some d) else none) from rfl] at h
        split_ifs at h with hcond
        · obtain ⟨ha, hb, hc, hd, he⟩ := hcond
          have h2 := Option.some.inj h
          rw [Prod.mk.injEq] at h2
          obtain ⟨htok, hrt⟩ := h2
          rw [← htok, ← hrt]
          subst ha
          subst he
          refine ⟨b, (isRoomsSeg_iff b).mp hb, hc, hfree c (by simp), hd,
            hfree d (by simp), ?_⟩
          right
          rw [← hjoin]
          simp [joinSlash]
  · intro h
    obtain ⟨r, hr, htok, htokf, hrest⟩ := h
    have hrfree : '/' ∉ r := no_slash_of_isRooms r hr
    have hrooms : isRoomsSeg r = true := (isRoomsSeg_iff r).mpr hr
    unfold parseRoomPath
    cases rt with
    | none =>
      rcases hrest with hname | hname
      · subst hname
        rw [splitSlash_cons_slash, splitSlash_append r _ hrfree,
          splitSlash_of_no_slash tok htokf]
        simp [parseSegs, hrooms, htok]
      · subst hname
        have : ('/' :: (r ++ '/' :: tok)) ++ ['/'] =
            '/' :: (r ++ '/' :: (tok ++ '/' :: ([] : Str))) := by
          simp
        rw [this, splitSlash_cons_slash, splitSlash_append r _ hrfree,
          splitSlash_append tok _ htokf]
        simp [splitSlash, parseSegs, hrooms, htok]
    | some ro =>
      obtain ⟨hro, hrof, hname⟩ := hrest
      rcases hname with hname | hname
      · subst hname
        have : ('/' :: (r ++ '/' :: tok ++ '/' :: ro)) =
            '/' :: (r ++ '/' :: (tok ++ '/' :: ro)) := by
          simp
        rw [this, splitSlash_cons_slash, splitSlash_append r _ hrfree,
          splitSlash_append tok _ htokf, splitSlash_of_no_slash ro hrof]
        simp [parseSegs, hrooms, htok, hro]
      · subst hname
        have : ('/' :: (r ++ '/' :: tok ++ '/' :: ro)) ++ ['/'] =
            '/' :: (r ++ '/' :: (tok ++ '/' :: (ro ++ '/' :: ([] : Str)))) := by
          simp
        rw [this, splitSlash_cons_slash, splitSlash_append r _ hrfree,
          splitSlash_append tok _ htokf, splitSlash_append ro _ hrof]
        simp [splitSlash, parseSegs, hrooms, htok, hro]

/-! ## Ordering lemmas for poll replay -/

theorem mem_insertDesc (p q : Poll) (l : List Poll) :
    q ∈ insertDesc p l ↔ q = p ∨ q ∈ l := by
  induction l with
  | nil => simp [insertDesc]
  | cons x xs ih =>
    by_cases h : p.created_at ≤ x.created_at
    · simp only [insertDesc, if_pos h, List.mem_cons, ih]
      tauto
    · simp only [insertDesc, if_neg h, List.mem_cons]

theorem mem_sortDesc (q : Poll) (l : List Poll) : q ∈ sortDesc l ↔ q ∈ l := by
  induction l with
  | nil => simp [sortDesc]
  | cons x xs ih =>
    simp [sortDesc, mem_insertDesc, ih]

theorem sortDesc_head_max (l : List Poll) (h : Poll) (hh : (sortDesc l).head? = some h) :
    ∀ q ∈ l, q.created_at ≤ h.created_at := by
  induction l generalizing h with
  | nil => simp [sortDesc] at hh
  | cons x xs ih =>
    intro q hq
    simp only [sortDesc] at hh
    cases hs : sortDesc xs with
    | nil =>
      rw [hs] at hh
      have hxh : x = h := by
        simpa [insertDesc] using hh
      subst hxh
      rcases List.mem_cons.mp hq with h1 | h2
      · subst h1; exact le_refl _
      · exact absurd ((mem_sortDesc q xs).mpr h2) (by rw [hs]; simp)
    | cons y ys =>
      rw [hs] at hh
      by_cases hcmp : x.created_at ≤ y.created_at
      · rw [show insertDesc x (y :: ys) = y :: insertDesc x ys from by
          simp [insertDesc, hcmp]] at hh
        have hyh : y = h := by simpa using hh
        subst hyh
        rcases List.mem_cons.mp hq with h1 | h2
        · subst h1; exact hcmp
        · exact ih y (by rw [hs]; rfl) q h2
      · rw [show insertDesc x (y :: ys) = x :: y :: ys from by
          simp [insertDesc, hcmp]] at hh
        have hxh : x = h := by simpa using hh
        subst hxh
        rcases List.mem_cons.mp hq with h1 | h2
        · subst h1; exact le_refl _
        · have h3 := ih y (by rw [hs]; rfl) q h2
          omega

/-- The head of the descending sort is the strict maximum, when one
exists. -/
theorem sortDesc_head_of_strict_max (l : List Poll) (p : Poll) (hp : p ∈ l)
    (hmax : ∀ q ∈ l, q ≠ p → q.created_at < p.created_at) :
    ∃ rest, sortDesc l = p :: rest := by
  obtain ⟨h, t, hht⟩ : ∃ h t, sortDesc l = h :: t := by
    cases hs : sortDesc l with
    | nil =>
      have hm := (mem_sortDesc p l).mpr hp
      rw [hs] at hm
      simp at hm
    | cons h t => exact ⟨h, t, rfl⟩
  have hhl : h ∈ l := (mem_sortDesc h l).mp (by rw [hht]; simp)
  have hle : p.created_at ≤ h.created_at :=
    sortDesc_head_max l h (by rw [hht]; rfl) p hp
  by_cases heq : h = p
  · exact ⟨t, by rw [hht, heq]⟩
  · have := hmax h hhl heq
    omega

/-! ## Tally invariant lemmas -/

theorem tallyAdd_keeps_key (t : Tally) (k l : Str) (d : Int) (v : JsNum)
    (h : tallyGet t l = some v) : ∃ v', tallyGet (tallyAdd t k d) l = some v' :=
  tallySet_keeps_key t k l _ v h

/-- No assignment performed by `applyPollResponse` removes a present key. -/
theorem applyPollResponse_keeps_key (t : Tally) (prev : Option Str) (nc l : Str)
    (v : JsNum) (h : tallyGet t l = some v) :
    ∃ v', tallyGet (applyPollResponse t prev nc) l = some v' := by
  unfold applyPollResponse
  obtain ⟨v1, hv1⟩ : ∃ v1, tallyGet (prevStage t prev) l = some v1 := by
    cases prev with
    | none => exact ⟨v, h⟩
    | some p =>
      by_cases hp : p = []
      · exact ⟨v, by simp [prevStage, hp]; exact h⟩
      · simp only [prevStage, ne_eq, hp, not_false_eq_true, if_pos]
        exact tallyAdd_keeps_key t p l (-1) v h
  exact tallyAdd_keeps_key _ nc l 1 v1 hv1

theorem tallyInvB_iff (t : Tally) :
    tallyInvB t = true ↔
      ∀ l ∈ choiceLabels, ∃ n : Int, 0 ≤ n ∧ tallyGet t l = some (.num n) := by
  simp only [tallyInvB, List.all_eq_true]
  constructor
  · intro h l hl
    have h2 := h l hl
    cases hg : tallyGet t l with
    | none => rw [hg] at h2; simp at h2
    | some v =>
      cases v with
      | num n =>
        rw [hg] at h2
        simp at h2
        exact ⟨n, h2, rfl⟩
      | nan => rw [hg] at h2; simp at h2
  · intro h l hl
    obtain ⟨n, hn, hg⟩ := h l hl
    rw [hg]
    simpa using hn

theorem prevOKB_iff (t : Tally) (prev : Option Str) :
    prevOKB t prev = true ↔
      ∀ p, prev = some p → p ∈ choiceLabels →
        ∃ n : Int, 0 < n ∧ tallyGet t p = some (.num n) := by
  cases prev with
  | none => simp [prevOKB]
  | some p =>
    simp only [prevOKB, Option.some.injEq]
    constructor
    · intro h q hq hql
      obtain rfl : p = q := hq
      rcases Bool.or_eq_true_iff.mp h with h1 | h1
      · rw [Bool.not_eq_true', decide_eq_false_iff_not] at h1
        exact absurd hql h1
      · cases hg : tallyGet t p with
        | none => rw [hg] at h1; simp at h1
        | some v =>
          cases v with
          | num n =>
            rw [hg] at h1
            simp at h1
            exact ⟨n, h1, rfl⟩
          | nan => rw [hg] at h1; simp at h1
    · intro h
      by_cases hpl : p ∈ choiceLabels
      · obtain ⟨n, hn, hg⟩ := h p rfl hpl
        rw [hg]
        simp [hn]
      · simp [hpl]

/-- Core preservation: under the tally invariant, a `PollResponse` whose
supplied previous choice (when it is one of the five labels) has a
strictly positive count keeps every label present with a non-negative
integer count. -/
theorem applyPollResponse_preserves_inv (t : Tally) (prev : Option Str) (nc : Str)
    (hInv : tallyInvB t = true) (hOK : prevOKB t prev = true) :
    tallyInvB (applyPollResponse t prev nc) = true := by
  rw [tallyInvB_iff] at hInv ⊢
  rw [prevOKB_iff] at hOK
  intro l hl
  obtain ⟨n, hn0, hget⟩ := hInv l hl
  -- value of `l` after the optional decrement
  obtain ⟨n1, hn1, hget1⟩ :
      ∃ n1 : Int, 0 ≤ n1 ∧ tallyGet (prevStage t prev) l = some (.num n1) := by
    cases prev with
    | none => exact ⟨n, hn0, hget⟩
    | some p =>
      by_cases hp : p = []
      · exact ⟨n, hn0, by simp only [prevStage, ne_eq, hp]; simpa using hget⟩
      · simp only [prevStage, ne_eq, hp, not_false_eq_true, if_pos]
        by_cases hpl : p = l
        · subst hpl
          obtain ⟨m, hm, hgp⟩ := hOK p rfl hl
          have hmn : m = n := by
            rw [hget] at hgp
            have h2 := Option.some.inj hgp
            injection h2 with h3
            exact h3.symm
          subst hmn
          refine ⟨m - 1, by omega, ?_⟩
          rw [tallyGet_tallyAdd_self, hget]
          rfl
        · exact ⟨n, hn0, by rw [tallyGet_tallyAdd_ne t p l (-1) hpl]; exact hget⟩
  unfold applyPollResponse
  by_cases hncl : nc = l
  · subst hncl
    refine ⟨n1 + 1, by omega, ?_⟩
    rw [tallyGet_tallyAdd_self, hget1]
    rfl
  · exact ⟨n1, hn1, by rw [tallyGet_tallyAdd_ne _ nc l 1 hncl]; exact hget1⟩

/-! ## Claim C1 -/

/-- C1. For every `PollResponse` carrying a poll identity, an optional
previous choice label, and a new choice label, the handler applies one
read-modify-write transaction to that poll's tally: the whole tally is
persisted by a single transactional write; the previous choice's count is
decremented by exactly one when a previous choice was supplied; the new
choice's count is incremented by exactly one; every other label is
untouched; and a `PollResponse` with no previous choice never decreases
any label's count. -/
theorem claim_C1_pollResponse_tally (db : DB) (roomName : Str) (pollId : Nat)
    (p : Poll) (prev nc : Str) (a b : Int)
    (hfind : db.polls.find? (fun q => q.id = pollId) = some p)
    (hprev : prev ≠ []) (hpn : prev ≠ nc)
    (ha : tallyGet p.values prev = some (.num a))
    (hb : tallyGet p.values nc = some (.num b)) :
    (pollResponse db roomName pollId (some prev) nc).txWrites
        = [(pollId, applyPollResponse p.values (some prev) nc)]
      ∧ applyPollResponse p.values (some prev) nc
          = tallyAdd (tallyAdd p.values prev (-1)) nc 1
      ∧ tallyGet (applyPollResponse p.values (some prev) nc) prev = some (.num (a - 1))
      ∧ tallyGet (applyPollResponse p.values (some prev) nc) nc = some (.num (b + 1))
      ∧ (∀ l, l ≠ prev → l ≠ nc →
          tallyGet (applyPollResponse p.values (some prev) nc) l = tallyGet p.values l)
      ∧ (∀ l c, tallyGet p.values l = some (.num c) →
          ∃ c', tallyGet (applyPollResponse p.values none nc) l = some (.num c') ∧ c ≤ c') := by
  have hstage : prevStage p.values (some prev) = tallyAdd p.values prev (-1) := by
    simp [prevStage, hprev]
  refine ⟨?_, ?_, ?_, ?_, ?_, ?_⟩
  · simp [pollResponse, hfind]
  · unfold applyPollResponse
    rw [hstage]
  · unfold applyPollResponse
    rw [hstage, tallyGet_tallyAdd_ne _ nc prev 1 (Ne.symm hpn),
      tallyGet_tallyAdd_self, ha]
    rfl
  · unfold applyPollResponse
    rw [hstage, tallyGet_tallyAdd_self, tallyGet_tallyAdd_ne _ prev nc (-1) hpn, hb]
    rfl
  · intro l hl1 hl2
    unfold applyPollResponse
    rw [hstage, tallyGet_tallyAdd_ne _ nc l 1 (Ne.symm hl2),
      tallyGet_tallyAdd_ne _ prev l (-1) (Ne.symm hl1)]
  · intro l c hc
    have hstage0 : prevStage p.values none = p.values := rfl
    unfold applyPollResponse
    rw [hstage0]
    by_cases hlc : nc = l
    · subst hlc
      refine ⟨c + 1, ?_, by omega⟩
      rw [tallyGet_tallyAdd_self, hc]
      rfl
    · exact ⟨c, by rw [tallyGet_tallyAdd_ne _ nc l 1 hlc]; exact hc, le_refl c⟩

/-- Witness for C1 at a concrete state: one poll with the launch tally,
a response changing the vote from `A` to `B`. -/
theorem claim_C1_witness :
    (pollResponse ⟨[], [⟨1, 7, initTally, 0, none⟩], []⟩ ['a', 'b', 'c'] 1
        (some ['A']) ['B']).txWrites
      = [(1, applyPollResponse initTally (some ['A']) ['B'])]
    ∧ tallyGet (applyPollResponse initTally (some ['A']) ['B']) ['A'] = some (.num (0 - 1))
    ∧ tallyGet (applyPollResponse initTally (some ['A']) ['B']) ['B'] = some (.num (0 + 1)) := by
  have h := claim_C1_pollResponse_tally ⟨[], [⟨1, 7, initTally, 0, none⟩], []⟩
    ['a', 'b', 'c'] 1 ⟨1, 7, initTally, 0, none⟩ ['A'] ['B'] 0 0
    (by decide) (by decide) (by decide) (by decide) (by decide)
  exact ⟨h.1, h.2.2.1, h.2.2.2.1⟩

/-! ## Claim C2 -/

/-- C2 (amended). `PollLaunch` creates the poll with the five fixed
labels all present and zero, a state satisfying the tally invariant; no
`PollResponse` ever removes a present label; and the invariant (all five
labels present with non-negative integer counts) is preserved by every
`PollResponse` whose supplied previous choice, when it is one of the five
labels, has a strictly positive count — the condition an honest revote
satisfies.  (Unrestricted client-supplied `prevChoice` values can drive a
count negative: see the counterexample.) -/
theorem claim_C2_tally_invariant :
    (∀ (db : DB) (roomId : Nat) (roomName : Str) (fresh now : Nat),
        (pollLaunch db roomId roomName fresh now).1.polls
          = db.polls ++ [⟨fresh, roomId, initTally, now, none⟩])
    ∧ tallyInvB initTally = true
    ∧ (∀ (t : Tally) (prev : Option Str) (nc : Str),
        tallyInvB t = true → prevOKB t prev = true →
        tallyInvB (applyPollResponse t prev nc) = true)
    ∧ (∀ (t : Tally) (prev : Option Str) (nc l : Str) (v : JsNum),
        tallyGet t l = some v →
        ∃ v', tallyGet (applyPollResponse t prev nc) l = some v') :=
  ⟨fun _ _ _ _ _ => rfl, by decide,
    applyPollResponse_preserves_inv, applyPollResponse_keeps_key⟩

/-- Counterexample to C2 as stated: from the launch tally, a single
`PollResponse` supplying `prevChoice = "A"` (which a client may send even
though no vote for `A` was counted) drives the count of `A` to `-1`. -/
theorem claim_C2_counterexample :
    tallyGet (applyPollResponse initTally (some ['A']) ['B']) ['A']
      = some (.num (-1)) := by
  decide

/-- Witness for the amended C2: a first vote (no previous choice) from the
launch state keeps the invariant. -/
theorem claim_C2_witness :
    tallyInvB (applyPollResponse initTally none ['A']) = true :=
  claim_C2_tally_invariant.2.2.1 initTally none ['A'] (by decide) (by decide)

/-! ## Claim C3 -/

/-- C3. A connection is accepted exactly when the requested channel
name matches the pattern `/rooms/{roomToken}[/{roleToken}]` and a `Room`
whose externally visible identifier equals `roomToken` exists; every
other connection is rejected.  (The authorizer returns a bare
accept/reject bit — no further detail — and takes the store only as
read-only input.) -/
theorem claim_C3_authorize (rooms : List Room) (name : Str) :
    authorizeRoom rooms name = true ↔
      ∃ tok rt, MatchesRoomPattern name tok rt ∧
        ∃ r ∈ rooms, r.visibleId = tok := by
  unfold authorizeRoom
  cases hp : parseRoomPath name with
  | none =>
    simp only [Bool.false_eq_true, false_iff]
    rintro ⟨tok, rt, hm, -⟩
    have := (parseRoomPath_correct name tok rt).mpr hm
    rw [hp] at this
    exact Option.noConfusion this
  | some pr =>
    obtain ⟨tok, rt⟩ := pr
    have hm : MatchesRoomPattern name tok rt := (parseRoomPath_correct name tok rt).mp hp
    constructor
    · intro h
      rw [List.any_eq_true] at h
      obtain ⟨r, hr, hvis⟩ := h
      exact ⟨tok, rt, hm, r, hr, by simpa using hvis⟩
    · rintro ⟨tok2, rt2, hm2, r, hr, hvis⟩
      have h2 := (parseRoomPath_correct name tok2 rt2).mpr hm2
      rw [hp] at h2
      have h3 := Option.some.inj h2
      have htok : tok = tok2 := congrArg Prod.fst h3
      rw [List.any_eq_true]
      exact ⟨r, hr, by simp [hvis, htok]⟩

/-! ## Claim C4 -/

/-- C4. For every accepted connection, the bound role is administrator
exactly when the channel name carries a non-empty second path segment
(equivalently, when the regex produced a second capture), and viewer
exactly when it does not; the role's handler set is registered, and the
administrator and viewer handler sets differ. -/
theorem claim_C4_role_binding (name tok : Str) (rt : Option Str)
    (h : parseRoomPath name = some (tok, rt)) :
    connectSession name = some (tok, boundRole rt, registeredHandlers (boundRole rt))
    ∧ (boundRole rt = .admin ↔ ∃ ro, rt = some ro ∧ ro ≠ [])
    ∧ (boundRole rt = .admin ↔ ∃ ro, MatchesRoomPattern name tok (some ro))
    ∧ (boundRole rt = .viewer ↔ rt = none)
    ∧ registeredHandlers .admin ≠ registeredHandlers .viewer := by
  have hm := (parseRoomPath_correct name tok rt).mp h
  refine ⟨by simp [connectSession, h], ?_, ?_, ?_, by decide⟩
  · cases rt with
    | none => simp [boundRole, strTruthy]
    | some s =>
      obtain ⟨-, -, -, -, hs, -⟩ := hm
      simp [boundRole, strTruthy, hs]
  · cases rt with
    | none =>
      have hv : boundRole (none : Option Str) = Role.viewer := rfl
      rw [hv]
      constructor
      · intro h2
        exact Role.noConfusion h2
      · rintro ⟨ro, hro⟩
        have h2 := (parseRoomPath_correct name tok (some ro)).mpr hro
        rw [h] at h2
        have h3 := Option.some.inj h2
        exact absurd (congrArg Prod.snd h3) (by simp)
    | some s =>
      have hm2 := hm
      obtain ⟨-, -, -, -, hs, -⟩ := hm2
      have ha : boundRole (some s) = Role.admin := by simp [boundRole, strTruthy, hs]
      rw [ha]
      constructor
      · intro h2
        exact ⟨s, hm⟩
      · intro h2
        rfl
  · cases rt with
    | none => simp [boundRole, strTruthy]
    | some s =>
      obtain ⟨-, -, -, -, hs, -⟩ := hm
      simp [boundRole, strTruthy, hs]

/-- Witness for C4: the channel `/rooms/abc/admin` binds the administrator
role and registers the administrator handler set. -/
theorem claim_C4_witness :
    connectSession ['/', 'r', 'o', 'o', 'm', 's', '/', 'a', 'b', 'c', '/',
        'a', 'd', 'm', 'i', 'n']
      = some (['a', 'b', 'c'], boundRole (some ['a', 'd', 'm', 'i', 'n']),
          registeredHandlers (boundRole (some ['a', 'd', 'm', 'i', 'n']))) :=
  (claim_C4_role_binding _ _ _ (by decide)).1

/-! ## Namespace disjointness -/

/-- The administrator namespace of a room is distinct from its viewer
namespace. -/
theorem adminNs_ne_viewerNs (rn : Str) : adminNs rn ≠ viewerNs rn := by
  intro h
  have h2 := congrArg List.length h
  simp [adminNs, List.length_append] at h2

/-! ## Claim C5 -/

/-- C5. For every `PollResponse`: when the poll row exists the
transaction commits and the updated tally is broadcast exactly once, to
the administrator namespace of the room only (never the viewer
namespace), and the submitting client is acknowledged with the accepted
new choice; any emit implies a committed write; and when the transaction
fails (missing poll row) the database is unchanged, nothing is broadcast,
and the submitting client alone receives the error through its
acknowledgment — the handler returns normally in both cases. -/
theorem claim_C5_pollResponse_broadcast (db : DB) (roomName : Str) (pollId : Nat)
    (prev : Option Str) (nc : Str) :
    (∀ p, db.polls.find? (fun q => q.id = pollId) = some p →
        (pollResponse db roomName pollId prev nc).emits
            = [⟨.ns (adminNs roomName), .pollResults (applyPollResponse p.values prev nc)⟩]
        ∧ (pollResponse db roomName pollId prev nc).ack = .choice nc
        ∧ (pollResponse db roomName pollId prev nc).txWrites
            = [(pollId, applyPollResponse p.values prev nc)])
    ∧ (∀ e ∈ (pollResponse db roomName pollId prev nc).emits,
        e.target = .ns (adminNs roomName) ∧ e.target ≠ .ns (viewerNs roomName))
    ∧ ((pollResponse db roomName pollId prev nc).emits ≠ [] →
        (pollResponse db roomName pollId prev nc).txWrites ≠ [])
    ∧ (db.polls.find? (fun q => q.id = pollId) = none →
        pollResponse db roomName pollId prev nc = ⟨db, [], [], .err⟩) := by
  cases hf : db.polls.find? (fun q => q.id = pollId) with
  | none =>
    refine ⟨?_, ?_, ?_, ?_⟩
    · intro p hp
      exact Option.noConfusion hp
    · intro e he
      simp [pollResponse, hf] at he
    · intro h2
      exact absurd (by simp [pollResponse, hf]) h2
    · intro h2
      simp [pollResponse, hf]
  | some p0 =>
    refine ⟨?_, ?_, ?_, ?_⟩
    · intro p hp
      have hpp : p0 = p := Option.some.inj hp
      subst hpp
      refine ⟨by simp [pollResponse, hf], by simp [pollResponse, hf],
        by simp [pollResponse, hf]⟩
    · intro e he
      simp only [pollResponse, hf] at he
      simp at he
      subst he
      refine ⟨rfl, ?_⟩
      intro h2
      have h3 : adminNs roomName = viewerNs roomName := by
        injection h2
      exact adminNs_ne_viewerNs roomName h3
    · intro h2
      simp [pollResponse, hf]
    · intro h2
      exact Option.noConfusion h2

/-- Witness for C5 at a concrete state: the response is acknowledged with
the chosen label when the poll exists, and a response against an unknown
poll id leaves the state unchanged and acknowledges the error. -/
theorem claim_C5_witness :
    (pollResponse ⟨[], [⟨1, 7, initTally, 0, none⟩], []⟩ ['a', 'b', 'c'] 1
        none ['A']).ack = .choice ['A']
    ∧ pollResponse ⟨[], [⟨1, 7, initTally, 0, none⟩], []⟩ ['a', 'b', 'c'] 2
        none ['A']
      = ⟨⟨[], [⟨1, 7, initTally, 0, none⟩], []⟩, [], [], .err⟩ := by
  have h1 := claim_C5_pollResponse_broadcast ⟨[], [⟨1, 7, initTally, 0, none⟩], []⟩
    ['a', 'b', 'c'] 1 none ['A']
  have h2 := claim_C5_pollResponse_broadcast ⟨[], [⟨1, 7, initTally, 0, none⟩], []⟩
    ['a', 'b', 'c'] 2 none ['A']
  exact ⟨(h1.1 ⟨1, 7, initTally, 0, none⟩ (by decide)).2.1, h2.2.2.2 (by decide)⟩

/-! ## Claim C7 -/

/-- Any poll-start emitted by replay belongs to a poll of the room whose
end timestamp is null. -/
theorem replayPoll_emits_unended (db : DB) (rid sid : Nat) (e : Emit)
    (he : e ∈ replayPoll db rid sid) :
    ∃ p ∈ db.polls, p.roomId = rid ∧ p.ended_at = none
      ∧ e = ⟨.sock sid, .pollStart p.id⟩ := by
  unfold replayPoll at he
  cases hs : sortDesc (db.polls.filter fun p => p.roomId = rid) with
  | nil => rw [hs] at he; simp at he
  | cons p rest =>
    rw [hs] at he
    have he2 : e ∈ (match p.ended_at with
        | none => [(⟨.sock sid, .pollStart p.id⟩ : Emit)]
        | some _ => []) := he
    cases hend : p.ended_at with
    | none =>
      rw [hend] at he2
      simp at he2
      subst he2
      have hp : p ∈ db.polls.filter (fun p => p.roomId = rid) :=
        (mem_sortDesc p _).mp (by rw [hs]; exact List.mem_cons_self p rest)
      have h2 := List.mem_filter.mp hp
      exact ⟨p, h2.1, by simpa using h2.2, hend, rfl⟩
    | some ts => rw [hend] at he2; simp at he2

/-- C7. After `PollEnd` on a poll: the poll's end timestamp is
non-null; the poll-end event is broadcast to the room's viewer namespace
and the caller acknowledged `true`; replay never emits the ended poll to
any subsequently connecting client; and, in any state, replay emits a
poll-start carrying only the poll identity exactly when the room's most
recently created poll has a null end timestamp. -/
theorem claim_C7_pollEnd_replay (db : DB) (roomName : Str) (pollId now : Nat) :
    (∀ p ∈ (pollEnd db roomName pollId now).1.polls, p.id = pollId →
        p.ended_at = some now)
    ∧ (pollEnd db roomName pollId now).2.1 = [⟨.ns (viewerNs roomName), .pollEndSig⟩]
    ∧ (pollEnd db roomName pollId now).2.2 = .ok true
    ∧ (∀ rid sid i, (⟨.sock sid, .pollStart i⟩ : Emit)
          ∈ replayPoll (pollEnd db roomName pollId now).1 rid sid → i ≠ pollId)
    ∧ (∀ (db2 : DB) (rid sid : Nat) (p : Poll),
        p ∈ db2.polls → p.roomId = rid →
        (∀ q ∈ db2.polls, q.roomId = rid → q ≠ p → q.created_at < p.created_at) →
        replayPoll db2 rid sid
          = match p.ended_at with
            | none => [⟨.sock sid, .pollStart p.id⟩]
            | some _ => []) := by
  have hended : ∀ p ∈ (pollEnd db roomName pollId now).1.polls, p.id = pollId →
      p.ended_at = some now := by
    intro p hp hpid
    simp only [pollEnd] at hp
    obtain ⟨q, hq, hfq⟩ := List.mem_map.mp hp
    by_cases hid : q.id = pollId
    · rw [if_pos hid] at hfq
      rw [← hfq]
    · rw [if_neg hid] at hfq
      rw [← hfq] at hpid
      exact absurd hpid hid
  refine ⟨hended, rfl, rfl, ?_, ?_⟩
  · intro rid sid i hmem hip
    obtain ⟨p, hp, hprid, hpend, hpe⟩ :=
      replayPoll_emits_unended (pollEnd db roomName pollId now).1 rid sid _ hmem
    have hpi : i = p.id := by
      have := congrArg Emit.event hpe
      simp at this
      exact this
    have := hended p hp (by rw [← hpi]; exact hip)
    rw [hpend] at this
    exact Option.noConfusion this
  · intro db2 rid sid p hp hprid hmax
    have hpf : p ∈ db2.polls.filter (fun q => q.roomId = rid) :=
      List.mem_filter.mpr ⟨hp, by simp [hprid]⟩
    have hmaxf : ∀ q ∈ db2.polls.filter (fun q => q.roomId = rid),
        q ≠ p → q.created_at < p.created_at := by
      intro q hq hqp
      have h2 := List.mem_filter.mp hq
      exact hmax q h2.1 (by simpa using h2.2) hqp
    obtain ⟨rest, hrest⟩ := sortDesc_head_of_strict_max _ p hpf hmaxf
    unfold replayPoll
    rw [hrest]

/-- Witness for C7 at a concrete state: ending the only (open) poll of a
room acknowledges `true`, broadcasts the end to viewers, and replay of
the room afterwards emits nothing. -/
theorem claim_C7_witness :
    (pollEnd ⟨[], [⟨1, 5, initTally, 10, none⟩], []⟩ ['a', 'b', 'c'] 1 99).2.2
        = .ok true
    ∧ (pollEnd ⟨[], [⟨1, 5, initTally, 10, none⟩], []⟩ ['a', 'b', 'c'] 1 99).2.1
        = [⟨.ns (viewerNs ['a', 'b', 'c']), .pollEndSig⟩]
    ∧ replayPoll ⟨[], [⟨1, 5, initTally, 10, some 99⟩], []⟩ 5 3 = [] := by
  have h := claim_C7_pollEnd_replay ⟨[], [⟨1, 5, initTally, 10, none⟩], []⟩
    ['a', 'b', 'c'] 1 99
  refine ⟨h.2.2.1, h.2.1, ?_⟩
  have h5 := h.2.2.2.2 ⟨[], [⟨1, 5, initTally, 10, some 99⟩], []⟩ 5 3
    ⟨1, 5, initTally, 10, some 99⟩ (by decide) (by decide) (by decide)
  exact h5

/-! ## Claim C6 -/

/-- C6 (amended). Question records delivered to viewers on connection
replay and on approval broadcast always have `approved = true`, so a
newly connected viewer never receives an unapproved question, while a
newly connected administrator receives every question of the room,
unapproved ones included.  (The upvote broadcast is the exception: it
forwards the updated record to the viewer namespace without an approval
check — see the counterexample.) -/
theorem claim_C6_viewer_approved (db : DB) (rid : Nat) (rn : Str) (qid : Nat) :
    (∀ w ∈ replayQuestions db rid .viewer, w.approved = true)
    ∧ (∀ q ∈ db.questions, q.roomId = rid → stripRoom q ∈ replayQuestions db rid .admin)
    ∧ (∀ out, questionApprove db rn qid = some out →
        ∀ t ws, (⟨.ns t, .questionNew ws⟩ : Emit) ∈ out.2.1 →
          ∀ w ∈ ws, w.approved = true) := by
  refine ⟨?_, ?_, ?_⟩
  · intro w hw
    simp only [replayQuestions] at hw
    obtain ⟨q, hq, hwq⟩ := List.mem_map.mp hw
    have h2 := List.mem_filter.mp hq
    have happ : q.approved = true := by
      have := h2.2
      simp at this
      exact this.2
    rw [← hwq]
    exact happ
  · intro q hq hrid
    simp only [replayQuestions]
    exact List.mem_map_of_mem stripRoom (List.mem_filter.mpr ⟨hq, by simp [hrid]⟩)
  · intro out hout t ws hws w hw
    unfold questionApprove at hout
    cases hf : db.questions.find? (fun q => q.id = qid) with
    | none => rw [hf] at hout; exact Option.noConfusion hout
    | some q =>
      rw [hf] at hout
      have hout2 := Option.some.inj hout
      rw [← hout2] at hws
      simp at hws
      rw [hws.2] at hw
      simp at hw
      rw [hw]
      rfl

/-- Counterexample to C6 as stated: upvoting an unapproved question
broadcasts the record, still unapproved, to the viewer namespace of the
invoking session's room. -/
theorem claim_C6_counterexample :
    questionUpvote ⟨[], [], [⟨1, 5, false, 0, []⟩]⟩ ['a', 'b', 'c'] 1
      = some (⟨[], [], [⟨1, 5, false, 1, []⟩]⟩,
          [⟨.ns (viewerNs ['a', 'b', 'c']), .questionNew [⟨1, false, 1, []⟩]⟩,
           ⟨.ns (adminNs ['a', 'b', 'c']), .questionNew [⟨1, false, 1, []⟩]⟩])
    ∧ (⟨1, false, 1, []⟩ : QuestionWire).approved = false := by
  constructor
  · rfl
  · rfl

/-- Witness for the amended C6 at a concrete state: an approved question
of the room is replayed to the admin, and replayed viewer records are
approved. -/
theorem claim_C6_witness :
    stripRoom ⟨1, 5, false, 0, []⟩
        ∈ replayQuestions ⟨[], [], [⟨1, 5, false, 0, []⟩, ⟨2, 5, true, 0, []⟩]⟩ 5 .admin
    ∧ (⟨2, true, 0, []⟩ : QuestionWire).approved = true := by
  have h := claim_C6_viewer_approved ⟨[], [], [⟨1, 5, false, 0, []⟩, ⟨2, 5, true, 0, []⟩]⟩
    5 ['a', 'b', 'c'] 1
  exact ⟨h.2.1 ⟨1, 5, false, 0, []⟩ (by decide) (by decide),
    h.1 ⟨2, true, 0, []⟩ (by decide)⟩

/-! ## Claim C8 -/

/-- C8 (amended). `QuestionClear` deletes exactly the questions of the
session's room (questions of other rooms survive); every connection of
the viewer namespace receives the clear signal exactly once, and the
initiating administrator connection receives it exactly once through the
explicit self-echo; but an administrator-namespace connection other than
the initiator receives nothing (the room-wide broadcast goes to the
viewer namespace only). -/
theorem claim_C8_questionClear (db : DB) (rid : Nat) (rn : Str) (selfSid : Nat) :
    (∀ q ∈ db.questions,
        (q ∈ (questionClear db rid rn selfSid).1.questions ↔ q.roomId ≠ rid))
    ∧ (∀ q ∈ (questionClear db rid rn selfSid).1.questions, q ∈ db.questions)
    ∧ (∀ c : Conn, c.nsName = viewerNs rn → c.sid ≠ selfSid →
        deliveryCount (questionClear db rid rn selfSid).2 c .questionClearSig = 1)
    ∧ (∀ c : Conn, c.nsName = adminNs rn → c.sid = selfSid →
        deliveryCount (questionClear db rid rn selfSid).2 c .questionClearSig = 1)
    ∧ (∀ c : Conn, c.nsName = adminNs rn → c.sid ≠ selfSid →
        deliveryCount (questionClear db rid rn selfSid).2 c .questionClearSig = 0) := by
  have hvne : viewerNs rn ≠ adminNs rn := Ne.symm (adminNs_ne_viewerNs rn)
  refine ⟨?_, ?_, ?_, ?_, ?_⟩
  · intro q hq
    simp [questionClear, List.mem_filter, hq]
  · intro q hq
    exact (List.mem_filter.mp hq).1
  · intro c hns hsid
    simp [questionClear, deliveryCount, deliversTo, List.filter, hns, Ne.symm hsid]
  · intro c hns hsid
    simp [questionClear, deliveryCount, deliversTo, List.filter, hns, hsid,
      fun h => hvne (h : viewerNs rn = adminNs rn)]
  · intro c hns hsid
    simp [questionClear, deliveryCount, deliversTo, List.filter, hns, Ne.symm hsid,
      fun h => hvne (h : viewerNs rn = adminNs rn)]

/-- Counterexample to C8 as stated: with the questions of the room
deleted, a second administrator-namespace connection (sid 2, distinct
from the initiating sid 1) receives the clear signal zero times, not
once. -/
theorem claim_C8_counterexample :
    (questionClear ⟨[], [],
        [⟨1, 5, false, 0, []⟩, ⟨2, 5, false, 0, []⟩, ⟨3, 5, true, 0, []⟩,
         ⟨4, 5, false, 0, []⟩, ⟨5, 5, true, 0, []⟩]⟩ 5 ['a', 'b', 'c'] 1).1.questions = []
    ∧ deliveryCount (questionClear ⟨[], [],
        [⟨1, 5, false, 0, []⟩, ⟨2, 5, false, 0, []⟩, ⟨3, 5, true, 0, []⟩,
         ⟨4, 5, false, 0, []⟩, ⟨5, 5, true, 0, []⟩]⟩ 5 ['a', 'b', 'c'] 1).2
        ⟨2, adminNs ['a', 'b', 'c']⟩ .questionClearSig = 0 := by
  constructor
  · rfl
  · rfl

/-- Witness for the amended C8 at a concrete state: a viewer connection
and the initiating administrator connection each receive the clear signal
exactly once. -/
theorem claim_C8_witness :
    deliveryCount (questionClear ⟨[], [], [⟨1, 5, false, 0, []⟩]⟩ 5
        ['a', 'b', 'c'] 1).2 ⟨3, viewerNs ['a', 'b', 'c']⟩ .questionClearSig = 1
    ∧ deliveryCount (questionClear ⟨[], [], [⟨1, 5, false, 0, []⟩]⟩ 5
        ['a', 'b', 'c'] 1).2 ⟨1, adminNs ['a', 'b', 'c']⟩ .questionClearSig = 1 := by
  have h := claim_C8_questionClear ⟨[], [], [⟨1, 5, false, 0, []⟩]⟩ 5 ['a', 'b', 'c'] 1
  exact ⟨h.2.2.1 ⟨3, viewerNs ['a', 'b', 'c']⟩ rfl (by decide),
    h.2.2.2.1 ⟨1, adminNs ['a', 'b', 'c']⟩ rfl rfl⟩

/-! ## Claim C9 -/

/-- C9 (amended). `QuestionAsk` inserts exactly one question,
acknowledges the submitter with `true`, and broadcasts the new question
with the room-identity field stripped to the administrator namespace
only, never the viewer namespace; `approved` is `false` no matter what
the payload contains (the literal follows the spread); but because the
payload is spread after the session's `roomId` and before no `votes`
default, a payload carrying a `roomId` or `votes` key overrides them —
the insert lands in the session's room with zero votes only when the
payload carries neither key. -/
theorem claim_C9_questionAsk (db : DB) (rid : Nat) (rn : Str) (fresh : Nat)
    (data : AskPayload) :
    (questionAsk db rid rn fresh data).1.questions
        = db.questions ++ [askedQuestion rid fresh data]
    ∧ (askedQuestion rid fresh data).approved = false
    ∧ (questionAsk db rid rn fresh data).2.2 = .ok true
    ∧ (questionAsk db rid rn fresh data).2.1
        = [⟨.ns (adminNs rn), .questionNew [stripRoom (askedQuestion rid fresh data)]⟩]
    ∧ (∀ e ∈ (questionAsk db rid rn fresh data).2.1, e.target ≠ .ns (viewerNs rn))
    ∧ (data.roomId = none → (askedQuestion rid fresh data).roomId = rid)
    ∧ (data.votes = none → (askedQuestion rid fresh data).votes = 0) := by
  refine ⟨rfl, rfl, rfl, rfl, ?_, ?_, ?_⟩
  · intro e he
    simp only [questionAsk] at he
    simp at he
    rw [he]
    intro h2
    have h3 : adminNs rn = viewerNs rn := by injection h2
    exact adminNs_ne_viewerNs rn h3
  · intro h
    simp [askedQuestion, h]
  · intro h
    simp [askedQuestion, h]

/-- Counterexample to C9 as stated: a payload carrying `roomId` and
`votes` keys makes the inserted question belong to another room with
non-zero votes, because the object spread follows the session's
`roomId`. -/
theorem claim_C9_counterexample :
    (askedQuestion 7 10 ⟨none, some 999, some 5, none⟩).roomId = 999
    ∧ (askedQuestion 7 10 ⟨none, some 999, some 5, none⟩).votes = 5
    ∧ (999 : Nat) ≠ 7 := by
  refine ⟨rfl, rfl, by decide⟩

/-- Witness for the amended C9 at a concrete state: a plain text payload
inserts an unapproved, zero-vote question of the session's room and is
acknowledged `true`. -/
theorem claim_C9_witness :
    (questionAsk ⟨[], [], []⟩ 7 ['a', 'b', 'c'] 10 ⟨some ['h', 'i'], none, none, none⟩).2.2
        = .ok true
    ∧ (askedQuestion 7 10 ⟨some ['h', 'i'], none, none, none⟩).roomId = 7
    ∧ (askedQuestion 7 10 ⟨some ['h', 'i'], none, none, none⟩).votes = 0
    ∧ (askedQuestion 7 10 ⟨some ['h', 'i'], none, none, none⟩).approved = false := by
  have h := claim_C9_questionAsk ⟨[], [], []⟩ 7 ['a', 'b', 'c'] 10
    ⟨some ['h', 'i'], none, none, none⟩
  exact ⟨h.2.2.1, h.2.2.2.2.2.1 rfl, h.2.2.2.2.2.2 rfl, h.2.1⟩

/-! ## Claim C10 -/

/-- C10. `QuestionApprove` and `QuestionUpvote` select their target by
question identity alone, with no check that it belongs to the session's
room: for a question of a different room, approval still sets
`approved = true` on it and broadcasts the record into the invoking
session's room namespaces, and upvote still increments its vote count and
broadcasts to both of the session's room namespaces. -/
theorem claim_C10_cross_room (db : DB) (rn : Str) (sessionRid : Nat) (q : Question)
    (hfind : db.questions.find? (fun x => x.id = q.id) = some q)
    (hroom : q.roomId ≠ sessionRid) :
    questionApprove db rn q.id
      = some ({ db with questions := approveRows db.questions q.id },
          [⟨.ns (viewerNs rn), .questionNew [stripRoom { q with approved := true }]⟩],
          .question (stripRoom { q with approved := true }))
    ∧ { q with approved := true } ∈ approveRows db.questions q.id
    ∧ questionUpvote db rn q.id
      = some ({ db with questions := upvoteRows db.questions q.id },
          [⟨.ns (viewerNs rn), .questionNew [stripRoom { q with votes := q.votes + 1 }]⟩,
           ⟨.ns (adminNs rn), .questionNew [stripRoom { q with votes := q.votes + 1 }]⟩])
    ∧ { q with votes := q.votes + 1 } ∈ upvoteRows db.questions q.id := by
  have hq : q ∈ db.questions := List.mem_of_find?_eq_some hfind
  refine ⟨?_, ?_, ?_, ?_⟩
  · simp [questionApprove, hfind]
  · have h2 := List.mem_map_of_mem
      (fun x => if x.id = q.id then { x with approved := true } else x) hq
    simp only [approveRows]
    simpa using h2
  · simp [questionUpvote, hfind]
  · have h2 := List.mem_map_of_mem
      (fun x => if x.id = q.id then { x with votes := x.votes + 1 } else x) hq
    simp only [upvoteRows]
    simpa using h2

/-- Witness for C10 at a concrete state: the session is in room 7, the
question belongs to room 99, yet approval updates it and broadcasts into
room 7's viewer namespace. -/
theorem claim_C10_witness :
    questionApprove ⟨[], [], [⟨1, 99, false, 0, []⟩]⟩ ['a', 'b', 'c'] 1
      = some (⟨[], [], [⟨1, 99, true, 0, []⟩]⟩,
          [⟨.ns (viewerNs ['a', 'b', 'c']), .questionNew [⟨1, true, 0, []⟩]⟩],
          .question ⟨1, true, 0, []⟩)
    ∧ questionUpvote ⟨[], [], [⟨1, 99, false, 0, []⟩]⟩ ['a', 'b', 'c'] 1
      = some (⟨[], [], [⟨1, 99, false, 1, []⟩]⟩,
          [⟨.ns (viewerNs ['a', 'b', 'c']), .questionNew [⟨1, false, 1, []⟩]⟩,
           ⟨.ns (adminNs ['a', 'b', 'c']), .questionNew [⟨1, false, 1, []⟩]⟩]) := by
  have h := claim_C10_cross_room ⟨[], [], [⟨1, 99, false, 0, []⟩]⟩ ['a', 'b', 'c'] 7
    ⟨1, 99, false, 0, []⟩ (by decide) (by decide)
  exact ⟨h.1, h.2.2.1⟩

end Broker

